import Mathlib

/-!
Verification development for the coin ingestion and selection scripts
(`fetch_coins/fetch_coin_infos.py` and `select_coin.py`).

Shallow embedding conventions:
- Python floats are modelled as `ℚ` (exact arithmetic; all constants in the
  source are decimally representable).
- Python strings are modelled as `List Char`; `str.upper()` is modelled as a
  per-character `Char.toUpper` map (all substrings/keywords of interest are
  ASCII).
- A Python value that may be absent (`dict.get` without a default, or with a
  default and the `or d` truthiness coercion) is an `Option`.
- `ath_date` is modelled by its parse outcome: absent/empty string,
  present-but-unparseable, or parsed to a timestamp (an `Int`, compared with
  the 2023-01-01 cutoff timestamp, mirroring the `datetime` comparison).
- I/O (files, HTTP) is modelled by explicit state / environment records;
  the filesystem of the aggregator is a record of the cache file and the
  page files, and the fetch loop takes an environment giving each page's
  fetch outcome and each page write's success.
-/

/-- Record (one coin snapshot), after JSON decoding.  Field names follow the
keys used by the source.  `ath_date` is represented by its parse outcome. -/
inductive AthDate where
  | absent
  | unparseable
  | parsed (t : Int)
deriving DecidableEq

structure Coin where
  name : List Char
  symbol : List Char
  market_cap : Option ℚ
  total_volume : Option ℚ
  price_change_percentage_24h : Option ℚ
  price_change_percentage_7d : Option ℚ
  market_cap_rank : Option ℚ
  ath_change_percentage : Option ℚ
  ath_date : AthDate
  current_price : Option ℚ

/-- Python `coin.get(key, d) or d`: absent gives `d`, and a falsy stored
value (numeric zero) also gives `d`. -/
def pyOr (v : Option ℚ) (d : ℚ) : ℚ :=
  match v with
  | none => d
  | some x => if x = 0 then d else x

/-- Per-character uppercasing, modelling `str.upper()` on ASCII data. -/
def upperL (s : List Char) : List Char := s.map Char.toUpper

/-- Executable prefix test: `isPref s l` holds when `s` starts `l`. -/
def isPref : List Char → List Char → Bool
  | [], _ => true
  | _ :: _, [] => false
  | a :: s, b :: t => a = b && isPref s t

/-- Substring test: `hasSub sub l` holds when `sub` occurs contiguously
in `l`, modelling Python's `sub in l` on strings. -/
def hasSub (sub : List Char) : List Char → Bool
  | [] => sub.isEmpty
  | b :: t => isPref sub (b :: t) || hasSub sub t

def USD : List Char := ['U', 'S', 'D']
def USDT : List Char := ['U', 'S', 'D', 'T']
def STAKED : List Char := ['S', 'T', 'A', 'K', 'E', 'D']

/-- Constant `CoinSelector.MARKET_CAP_MAX`. -/
def MARKET_CAP_MAX : ℚ := 10000000000

/-- Constant `CoinSelector.MARKET_CAP_MIN`. -/
def MARKET_CAP_MIN : ℚ := 100000000

/-- Unix timestamp of `2023-01-01T00:00:00+00:00`, the cutoff constant built
by `datetime.fromisoformat` in `is_excellent_coin`. -/
def athCutoff : Int := 1672531200

/-- Rejection reasons of `is_excellent_coin`, one constructor per `return
(False, ...)` site of the source, in source order. -/
inductive Reason where
  | blacklistKw (kw : List Char)
  | stableUsd
  | stakedDead
  | capAboveMax
  | capBelowMin
  | capNonpositive
  | lowVolume
  | bigDrop24h
  | staleAth
  | athDropBelowNeg98
deriving DecidableEq

/-- The ATH staleness test of `is_excellent_coin`: `ath_date` parses to a
timestamp before the cutoff and `ath_change_percentage` is `None` or
`< -95`.  An unparseable or absent date skips the check. -/
def athStale (c : Coin) : Bool :=
  match c.ath_date with
  | .parsed t =>
      decide (t < athCutoff) &&
        (match c.ath_change_percentage with
         | none => true
         | some v => decide (v < -95))
  | _ => false

/-- The final ATH drawdown test: `ath_change_percentage` present and
`< -98`. -/
def athDrop98 (c : Coin) : Bool :=
  match c.ath_change_percentage with
  | some v => decide (v < -98)
  | none => false

/-- Source `CoinSelector.is_excellent_coin`, translated check for check (including
the two defensively redundant checks of the source: the second STAKED test
and the `market_cap <= 0` test).  The blacklist parameter is the list of
uppercased keywords loaded at startup. -/
def is_excellent_coin (blacklist : List (List Char)) (c : Coin) :
    Bool × Option Reason :=
  let name := upperL c.name
  let symbol := upperL c.symbol
  let market_cap := pyOr c.market_cap 0
  let total_volume := pyOr c.total_volume 0
  let pc24 := pyOr c.price_change_percentage_24h 0
  match blacklist.find? (fun kw => kw == name || symbol == kw) with
  | some kw => (false, some (.blacklistKw kw))
  | none =>
    if hasSub USD name || hasSub USD symbol || hasSub USDT name ||
        hasSub STAKED name || hasSub STAKED symbol then
      (false, some .stableUsd)
    else if hasSub STAKED name || hasSub STAKED symbol then
      (false, some .stakedDead)
    else if market_cap > MARKET_CAP_MAX then
      (false, some .capAboveMax)
    else if market_cap < MARKET_CAP_MIN then
      (false, some .capBelowMin)
    else if market_cap ≤ 0 then
      (false, some .capNonpositive)
    else if total_volume < 600000 then
      (false, some .lowVolume)
    else if pc24 < -20 then
      (false, some .bigDrop24h)
    else if athStale c then
      (false, some .staleAth)
    else if athDrop98 c then
      (false, some .athDropBelowNeg98)
    else
      (true, none)

/-- Source `CoinSelector.calculate_score`, translated as the source's sequential
accumulation of the four conditional sub-scores. -/
def calculate_score (c : Coin) : ℚ :=
  let market_cap := pyOr c.market_cap 0
  let total_volume := pyOr c.total_volume 0
  let price_change_24h := pyOr c.price_change_percentage_24h 0
  let price_change_7d := pyOr c.price_change_percentage_7d 0
  let market_cap_rank := pyOr c.market_cap_rank 999
  let score : ℚ := 0
  let score :=
    if market_cap > 0 then
      score + min (total_volume / market_cap * 100 / 5) 10 * 0.4
    else score
  let score :=
    if price_change_24h > 0 then
      score + min (price_change_24h / 10) 10 * 0.3
    else score
  let score :=
    if price_change_7d > 0 then
      score + min (price_change_7d / 20) 10 * 0.2
    else score
  let score :=
    if market_cap_rank ≤ 100 then
      score + (101 - market_cap_rank) / 10 * 0.1
    else score
  score

/-- The liquidity sub-score (weight 0.4) of `calculate_score` in
isolation. -/
def volumeSubscore (c : Coin) : ℚ :=
  let market_cap := pyOr c.market_cap 0
  let total_volume := pyOr c.total_volume 0
  if market_cap > 0 then min (total_volume / market_cap * 100 / 5) 10 * 0.4
  else 0

/-- The 24h momentum sub-score (weight 0.3) of `calculate_score` in
isolation. -/
def change24Subscore (c : Coin) : ℚ :=
  let price_change_24h := pyOr c.price_change_percentage_24h 0
  if price_change_24h > 0 then min (price_change_24h / 10) 10 * 0.3 else 0

/-- The 7d momentum sub-score (weight 0.2) of `calculate_score` in
isolation. -/
def change7dSubscore (c : Coin) : ℚ :=
  let price_change_7d := pyOr c.price_change_percentage_7d 0
  if price_change_7d > 0 then min (price_change_7d / 20) 10 * 0.2 else 0

/-- The rank bonus sub-score (weight 0.1) of `calculate_score` in
isolation. -/
def rankSubscore (c : Coin) : ℚ :=
  let market_cap_rank := pyOr c.market_cap_rank 999
  if market_cap_rank ≤ 100 then (101 - market_cap_rank) / 10 * 0.1 else 0

/-- Sanity check against the spec's worked scenario: market cap 5e9,
volume 3e8, +5% 24h, +10% 7d, rank 50 scores exactly 1.24. -/
theorem scenario_score_value :
    calculate_score
      { name := [], symbol := [], market_cap := some 5000000000,
        total_volume := some 300000000,
        price_change_percentage_24h := some 5,
        price_change_percentage_7d := some 10,
        market_cap_rank := some 50, ath_change_percentage := some (-40),
        ath_date := .parsed 1685577600, current_price := none } =
      (124 : ℚ) / 100 := by
  norm_num [calculate_score, pyOr, min_def]

/-- The stablecoin/staking substring condition as the spec words it
(second predicate of §4.6): uppercased name or symbol contains `USD`,
`USDT` or `STAKED` as a substring.  Spec-side definition, to be compared
with the test in `is_excellent_coin`. -/
def specStableCond (c : Coin) : Bool :=
  let name := upperL c.name
  let symbol := upperL c.symbol
  hasSub USD name || hasSub USD symbol || hasSub USDT name ||
    hasSub USDT symbol || hasSub STAKED name || hasSub STAKED symbol

/-- The eligibility pipeline as the spec words it (§4.6): the reason of
the first failing predicate in the fixed order 1–8, or `none` when all
eight pass.  Spec-side definition for the refinement claims, to be
compared with `is_excellent_coin`. -/
def specFirstReason (blacklist : List (List Char)) (c : Coin) :
    Option Reason :=
  let name := upperL c.name
  let symbol := upperL c.symbol
  let market_cap := pyOr c.market_cap 0
  let total_volume := pyOr c.total_volume 0
  let pc24 := pyOr c.price_change_percentage_24h 0
  match blacklist.find? (fun kw => kw == name || symbol == kw) with
  | some kw => some (.blacklistKw kw)
  | none =>
    if specStableCond c then some .stableUsd
    else if market_cap > MARKET_CAP_MAX then some .capAboveMax
    else if market_cap < MARKET_CAP_MIN then some .capBelowMin
    else if total_volume < 600000 then some .lowVolume
    else if pc24 < -20 then some .bigDrop24h
    else if athStale c then some .staleAth
    else if athDrop98 c then some .athDropBelowNeg98
    else none

theorem isPref_append_left (s t l : List Char) :
    isPref (s ++ t) l = true → isPref s l = true := by
  induction s generalizing l with
  | nil => intro _; rfl
  | cons a s ih =>
    intro h
    cases l with
    | nil => simp [isPref] at h
    | cons b l =>
      simp only [List.cons_append, isPref, Bool.and_eq_true] at h ⊢
      exact ⟨h.1, ih l h.2⟩

theorem hasSub_append_left (s t l : List Char) :
    hasSub (s ++ t) l = true → hasSub s l = true := by
  induction l with
  | nil =>
    simp only [hasSub, List.isEmpty_iff, List.append_eq_nil]
    intro h
    simp [h.1]
  | cons b l ih =>
    simp only [hasSub, Bool.or_eq_true]
    rintro (h | h)
    · exact Or.inl (isPref_append_left _ _ _ h)
    · exact Or.inr (ih h)

/-- A string containing `USDT` contains `USD`. -/
theorem hasSub_USDT_USD (l : List Char) :
    hasSub USDT l = true → hasSub USD l = true :=
  hasSub_append_left USD ['T'] l

/-- The source's stablecoin test (which omits the redundant
`USDT ⊆ symbol` disjunct) equals the spec's six-disjunct condition. -/
theorem source_stable_eq_spec (c : Coin) :
    (hasSub USD (upperL c.name) || hasSub USD (upperL c.symbol) ||
      hasSub USDT (upperL c.name) || hasSub STAKED (upperL c.name) ||
      hasSub STAKED (upperL c.symbol)) = specStableCond c := by
  simp only [specStableCond, Bool.or_assoc]
  cases hn : hasSub USD (upperL c.name) <;>
    cases hs : hasSub USD (upperL c.symbol) <;> simp
  have hT : hasSub USDT (upperL c.symbol) = false := by
    cases h : hasSub USDT (upperL c.symbol)
    · rfl
    · exact absurd (hasSub_USDT_USD _ h) (by simp [hs])
  rw [hT]
  simp

/-- C5: for every record the eligibility filter yields exactly one outcome:
the pair returned by `is_excellent_coin` is accept with no reason, or reject
with exactly the reason of the first failing predicate in the spec's fixed
order 1–8 (`specFirstReason`); the accept flag is true iff no predicate
fails.  (Short-circuiting is intensional; extensionally the output equals
the first-failing-predicate result.) -/
theorem c5_filter_exclusive_first_reason (bl : List (List Char)) (c : Coin) :
    is_excellent_coin bl c =
      ((specFirstReason bl c).isNone, specFirstReason bl c) := by
  simp only [is_excellent_coin, specFirstReason]
  cases hfind :
      List.find? (fun kw => kw == upperL c.name || upperL c.symbol == kw)
        bl with
  | some kw => simp
  | none =>
    rw [source_stable_eq_spec c]
    cases hsc : specStableCond c with
    | true => simp
    | false =>
      have hstk :
          (hasSub STAKED (upperL c.name) ||
            hasSub STAKED (upperL c.symbol)) = false := by
        revert hsc
        simp only [specStableCond]
        cases hasSub STAKED (upperL c.name) <;>
          cases hasSub STAKED (upperL c.symbol) <;> simp
      rw [hstk]
      simp only [Bool.false_eq_true, if_false]
      by_cases h1 : pyOr c.market_cap 0 > MARKET_CAP_MAX
      · simp [h1]
      · by_cases h2 : pyOr c.market_cap 0 < MARKET_CAP_MIN
        · simp [h1, h2]
        · have h3 : ¬ pyOr c.market_cap 0 ≤ 0 := by
            push_neg at h2
            have : (0 : ℚ) < MARKET_CAP_MIN := by norm_num [MARKET_CAP_MIN]
            push_neg
            linarith
          simp only [h1, h2, h3, if_false, if_neg]
          split_ifs <;> simp

theorem pyOr_nonneg (v : Option ℚ) (d : ℚ) (hd : 0 ≤ d)
    (hv : ∀ x ∈ v, 0 ≤ x) : 0 ≤ pyOr v d := by
  cases v with
  | none => simpa [pyOr] using hd
  | some x =>
    simp only [pyOr]
    split
    · exact hd
    · exact hv x rfl

theorem pyOr_one_le (v : Option ℚ) (d : ℚ) (hd : 1 ≤ d)
    (hv : ∀ x ∈ v, 1 ≤ x) : 1 ≤ pyOr v d := by
  cases v with
  | none => simpa [pyOr] using hd
  | some x =>
    simp only [pyOr]
    split
    · exact hd
    · exact hv x rfl

theorem volumeSubscore_bounds (c : Coin)
    (htv : ∀ x ∈ c.total_volume, 0 ≤ x) :
    0 ≤ volumeSubscore c ∧ volumeSubscore c ≤ 4 := by
  simp only [volumeSubscore]
  split_ifs with h
  · have h0 : 0 ≤ pyOr c.total_volume 0 := pyOr_nonneg _ _ le_rfl htv
    have hr : 0 ≤ pyOr c.total_volume 0 / pyOr c.market_cap 0 * 100 / 5 :=
      div_nonneg (mul_nonneg (div_nonneg h0 h.le) (by norm_num)) (by norm_num)
    have hlo : (0 : ℚ) ≤ min (pyOr c.total_volume 0 / pyOr c.market_cap 0 * 100 / 5) 10 :=
      le_min hr (by norm_num)
    have hhi : min (pyOr c.total_volume 0 / pyOr c.market_cap 0 * 100 / 5) 10 ≤ 10 :=
      min_le_right _ _
    constructor
    · nlinarith
    · nlinarith
  · norm_num

theorem change24Subscore_bounds (c : Coin) :
    0 ≤ change24Subscore c ∧ change24Subscore c ≤ 3 := by
  simp only [change24Subscore]
  split_ifs with h
  · have hr : 0 ≤ pyOr c.price_change_percentage_24h 0 / 10 := by positivity
    have hlo : (0 : ℚ) ≤ min (pyOr c.price_change_percentage_24h 0 / 10) 10 :=
      le_min hr (by norm_num)
    have hhi : min (pyOr c.price_change_percentage_24h 0 / 10) 10 ≤ 10 :=
      min_le_right _ _
    constructor
    · nlinarith
    · nlinarith
  · norm_num

theorem change7dSubscore_bounds (c : Coin) :
    0 ≤ change7dSubscore c ∧ change7dSubscore c ≤ 2 := by
  simp only [change7dSubscore]
  split_ifs with h
  · have hr : 0 ≤ pyOr c.price_change_percentage_7d 0 / 20 := by positivity
    have hlo : (0 : ℚ) ≤ min (pyOr c.price_change_percentage_7d 0 / 20) 10 :=
      le_min hr (by norm_num)
    have hhi : min (pyOr c.price_change_percentage_7d 0 / 20) 10 ≤ 10 :=
      min_le_right _ _
    constructor
    · nlinarith
    · nlinarith
  · norm_num

theorem rankSubscore_bounds (c : Coin)
    (hrank : ∀ x ∈ c.market_cap_rank, 1 ≤ x) :
    0 ≤ rankSubscore c ∧ rankSubscore c ≤ 1 := by
  simp only [rankSubscore]
  have h1 : 1 ≤ pyOr c.market_cap_rank 999 :=
    pyOr_one_le _ _ (by norm_num) hrank
  split_ifs with h
  · constructor
    · nlinarith
    · nlinarith
  · norm_num

theorem calculate_score_decomposition (c : Coin) :
    calculate_score c =
      volumeSubscore c + change24Subscore c + change7dSubscore c +
        rankSubscore c := by
  simp only [calculate_score, volumeSubscore, change24Subscore,
    change7dSubscore, rankSubscore]
  split_ifs <;> ring

/-- C6: under the data-model preconditions (non-negative market cap and
volume, rank at least 1 when present; absent fields defaulting through
`pyOr`), the composite score is the sum of the four independently capped
weighted sub-scores and lies in `[0, 10]`. -/
theorem c6_score_sum_and_bounds (c : Coin)
    (_hmc : ∀ x ∈ c.market_cap, 0 ≤ x)
    (htv : ∀ x ∈ c.total_volume, 0 ≤ x)
    (hrank : ∀ x ∈ c.market_cap_rank, 1 ≤ x) :
    calculate_score c =
      volumeSubscore c + change24Subscore c + change7dSubscore c +
        rankSubscore c ∧
    0 ≤ calculate_score c ∧ calculate_score c ≤ 10 := by
  have hd := calculate_score_decomposition c
  have h1 := volumeSubscore_bounds c htv
  have h2 := change24Subscore_bounds c
  have h3 := change7dSubscore_bounds c
  have h4 := rankSubscore_bounds c hrank
  refine ⟨hd, ?_, ?_⟩
  · rw [hd]; linarith [h1.1, h2.1, h3.1, h4.1]
  · rw [hd]; linarith [h1.2, h2.2, h3.2, h4.2]

/-- C6 witness: the spec's concrete scenario record (market cap 5e9,
volume 3e8, +5% 24h, +10% 7d, rank 50) satisfies the preconditions and
the theorem's conclusion. -/
theorem c6_score_sum_and_bounds_witness :
    calculate_score
        { name := [], symbol := [], market_cap := some 5000000000,
          total_volume := some 300000000,
          price_change_percentage_24h := some 5,
          price_change_percentage_7d := some 10,
          market_cap_rank := some 50, ath_change_percentage := some (-40),
          ath_date := .parsed 1685577600, current_price := none } =
      volumeSubscore
        { name := [], symbol := [], market_cap := some 5000000000,
          total_volume := some 300000000,
          price_change_percentage_24h := some 5,
          price_change_percentage_7d := some 10,
          market_cap_rank := some 50, ath_change_percentage := some (-40),
          ath_date := .parsed 1685577600, current_price := none } +
      change24Subscore
        { name := [], symbol := [], market_cap := some 5000000000,
          total_volume := some 300000000,
          price_change_percentage_24h := some 5,
          price_change_percentage_7d := some 10,
          market_cap_rank := some 50, ath_change_percentage := some (-40),
          ath_date := .parsed 1685577600, current_price := none } +
      change7dSubscore
        { name := [], symbol := [], market_cap := some 5000000000,
          total_volume := some 300000000,
          price_change_percentage_24h := some 5,
          price_change_percentage_7d := some 10,
          market_cap_rank := some 50, ath_change_percentage := some (-40),
          ath_date := .parsed 1685577600, current_price := none } +
      rankSubscore
        { name := [], symbol := [], market_cap := some 5000000000,
          total_volume := some 300000000,
          price_change_percentage_24h := some 5,
          price_change_percentage_7d := some 10,
          market_cap_rank := some 50, ath_change_percentage := some (-40),
          ath_date := .parsed 1685577600, current_price := none } ∧
    0 ≤ calculate_score
        { name := [], symbol := [], market_cap := some 5000000000,
          total_volume := some 300000000,
          price_change_percentage_24h := some 5,
          price_change_percentage_7d := some 10,
          market_cap_rank := some 50, ath_change_percentage := some (-40),
          ath_date := .parsed 1685577600, current_price := none } ∧
      calculate_score
        { name := [], symbol := [], market_cap := some 5000000000,
          total_volume := some 300000000,
          price_change_percentage_24h := some 5,
          price_change_percentage_7d := some 10,
          market_cap_rank := some 50, ath_change_percentage := some (-40),
          ath_date := .parsed 1685577600, current_price := none } ≤ 10 :=
  c6_score_sum_and_bounds _ (by norm_num) (by norm_num) (by norm_num)

/-- C8: for a record that the blacklist rule does not reject, the
stablecoin/staking heuristic rejects it (reason `stableUsd`) if and only if
the uppercased name or symbol contains `USD`, `USDT` or `STAKED` as a
substring (`specStableCond`, the spec's six-disjunct condition; the source
omits the `USDT ⊆ symbol` disjunct, which `USD ⊆ symbol` subsumes). -/
theorem c8_stable_heuristic_iff (bl : List (List Char)) (c : Coin)
    (hbl : bl.find?
        (fun kw => kw == upperL c.name || upperL c.symbol == kw) = none) :
    (is_excellent_coin bl c).2 = some .stableUsd ↔
      specStableCond c = true := by
  simp only [is_excellent_coin, hbl]
  rw [source_stable_eq_spec c]
  cases hsc : specStableCond c with
  | true => simp
  | false =>
    simp only [Bool.false_eq_true, if_false]
    constructor
    · intro h
      exfalso
      revert h
      split_ifs <;> intro h <;>
        first
          | exact Reason.noConfusion (Option.some.inj h)
          | exact Option.noConfusion h
          | exact h
    · intro h
      exact absurd h (by simp)

/-- C8 witness: symbol `usdt` with an empty blacklist is rejected by the
heuristic, matching the substring condition. -/
theorem c8_stable_heuristic_iff_witness :
    (is_excellent_coin []
        { name := ['T', 'e', 't', 'h', 'e', 'r'],
          symbol := ['u', 's', 'd', 't'], market_cap := some 90000000000,
          total_volume := some 50000000000,
          price_change_percentage_24h := some 0,
          price_change_percentage_7d := some 0, market_cap_rank := some 3,
          ath_change_percentage := some (-3), ath_date := .parsed 1530403200,
          current_price := some 1 }).2 = some .stableUsd ↔
      specStableCond
        { name := ['T', 'e', 't', 'h', 'e', 'r'],
          symbol := ['u', 's', 'd', 't'], market_cap := some 90000000000,
          total_volume := some 50000000000,
          price_change_percentage_24h := some 0,
          price_change_percentage_7d := some 0, market_cap_rank := some 3,
          ath_change_percentage := some (-3), ath_date := .parsed 1530403200,
          current_price := some 1 } = true :=
  c8_stable_heuristic_iff [] _ rfl

/-- A scored accepted record: the coin paired with the
`excellent_score` attached by `filter_coins`. -/
def Scored : Type := Coin × ℚ

/-- One step of the stable descending insertion used to model
`list.sort(key=score, reverse=True)` (CPython's stable sort with a
reversed comparison: an element moves past another only when the other's
score is strictly greater). -/
def insertDesc (x : Coin × ℚ) : List (Coin × ℚ) → List (Coin × ℚ)
  | [] => [x]
  | y :: t => if x.2 < y.2 then y :: insertDesc x t else x :: y :: t

/-- Stable descending sort by score, modelling
`filtered_coins.sort(key=..., reverse=True)`. -/
def sortDesc : List (Coin × ℚ) → List (Coin × ℚ)
  | [] => []
  | x :: t => insertDesc x (sortDesc t)

/-- The partition loop of `CoinSelector.filter_coins`: accepted coins (in
input order, scored) and rejected coins with their reasons. -/
def partitionCoins (blacklist : List (List Char)) :
    List Coin → List (Coin × ℚ) × List (Coin × Option Reason)
  | [] => ([], [])
  | c :: t =>
    let rest := partitionCoins blacklist t
    match is_excellent_coin blacklist c with
    | (true, _) => ((c, calculate_score c) :: rest.1, rest.2)
    | (false, r) => (rest.1, (c, r) :: rest.2)

/-- `CoinSelector.filter_coins`, over an already-aggregated record list
(`get_all_coins` is modelled separately; the selection itself is a pure
function of the cached data). -/
def filter_coins (blacklist : List (List Char)) (all_coins : List Coin) :
    List (Coin × ℚ) × List (Coin × Option Reason) :=
  if all_coins.isEmpty then ([], [])
  else
    let p := partitionCoins blacklist all_coins
    (sortDesc p.1, p.2)

theorem insertDesc_perm (x : Coin × ℚ) (l : List (Coin × ℚ)) :
    (insertDesc x l).Perm (x :: l) := by
  induction l with
  | nil => simp [insertDesc]
  | cons y t ih =>
    simp only [insertDesc]
    split_ifs
    · exact ((ih.cons y).trans (List.Perm.swap x y t))
    · exact List.Perm.refl _

theorem sortDesc_perm (l : List (Coin × ℚ)) : (sortDesc l).Perm l := by
  induction l with
  | nil => simp [sortDesc]
  | cons x t ih =>
    exact (insertDesc_perm x (sortDesc t)).trans (ih.cons x)

theorem insertDesc_sorted (x : Coin × ℚ) (l : List (Coin × ℚ))
    (hl : l.Pairwise (fun a b => b.2 ≤ a.2)) :
    (insertDesc x l).Pairwise (fun a b => b.2 ≤ a.2) := by
  induction l with
  | nil => simp [insertDesc]
  | cons y t ih =>
    simp only [insertDesc]
    rw [List.pairwise_cons] at hl
    split_ifs with h
    · rw [List.pairwise_cons]
      refine ⟨?_, ih hl.2⟩
      intro z hz
      rcases List.mem_cons.mp ((insertDesc_perm x t).mem_iff.mp hz) with
        hz3 | hz3
      · subst hz3; exact h.le
      · exact hl.1 z hz3
    · rw [List.pairwise_cons]
      push_neg at h
      refine ⟨?_, List.pairwise_cons.mpr hl⟩
      intro z hz
      rcases List.mem_cons.mp hz with hz3 | hz3
      · subst hz3; exact h
      · exact le_trans (hl.1 z hz3) h

theorem sortDesc_sorted (l : List (Coin × ℚ)) :
    (sortDesc l).Pairwise (fun a b => b.2 ≤ a.2) := by
  induction l with
  | nil => simp [sortDesc]
  | cons x t ih => exact insertDesc_sorted x (sortDesc t) ih

theorem filter_insertDesc (s : ℚ) (x : Coin × ℚ) (l : List (Coin × ℚ)) :
    (insertDesc x l).filter (fun z => decide (z.2 = s)) =
      (x :: l).filter (fun z => decide (z.2 = s)) := by
  induction l with
  | nil => rfl
  | cons y t ih =>
    simp only [insertDesc]
    split_ifs with h
    · by_cases hy : y.2 = s
      · have hx : ¬ x.2 = s := by
          intro hx
          rw [hx, hy] at h
          exact lt_irrefl s h
        simp [List.filter_cons, hy, hx, ih]
      · simp [List.filter_cons, hy, ih]
    · rfl

theorem filter_sortDesc (s : ℚ) (l : List (Coin × ℚ)) :
    (sortDesc l).filter (fun z => decide (z.2 = s)) =
      l.filter (fun z => decide (z.2 = s)) := by
  induction l with
  | nil => rfl
  | cons x t ih =>
    simp only [sortDesc]
    rw [filter_insertDesc]
    simp [List.filter_cons, ih]

theorem filter_coins_eq (bl : List (List Char)) (coins : List Coin) :
    filter_coins bl coins =
      (sortDesc (partitionCoins bl coins).1, (partitionCoins bl coins).2) := by
  cases coins with
  | nil => rfl
  | cons c t => rfl

/-- C7: the selection over cached data is a pure function (two runs over
identical data coincide), and its accepted list is the stable descending
sort by score of the accepted records in aggregation order: a permutation
of them, with non-increasing scores, in which the records of any fixed
score keep their aggregation order. -/
theorem c7_ranking_deterministic_stable (bl : List (List Char))
    (coins : List Coin) :
    filter_coins bl coins = filter_coins bl coins ∧
    ((filter_coins bl coins).1).Pairwise (fun a b => b.2 ≤ a.2) ∧
    ((filter_coins bl coins).1).Perm (partitionCoins bl coins).1 ∧
    ∀ s : ℚ,
      ((filter_coins bl coins).1).filter (fun z => decide (z.2 = s)) =
        ((partitionCoins bl coins).1).filter (fun z => decide (z.2 = s)) := by
  rw [filter_coins_eq]
  exact ⟨rfl, sortDesc_sorted _, sortDesc_perm _, fun s => filter_sortDesc s _⟩

/-- Environment of one ingestion run: the record list `fetch_page` returns
for each page (empty meaning no data or exhausted retries), and whether the
`save_page_data` file write for that page succeeds (its exceptions are
caught inside `save_page_data` and only logged). -/
structure FetchEnv (α : Type) where
  pageData : Int → List α
  storeOk : Int → Bool

/-- Observable state of one run of `fetch_coin_infos`: the state file's
`last_page` (written by `save_state`), the pages durably written by
`save_page_data`, the `fetched_pages` counter and `last_fetched_page`. -/
structure RunState (α : Type) where
  stateFile : Int
  stored : List (Int × List α)
  fetchedPages : Nat
  lastFetchedPage : Int
deriving DecidableEq

inductive StopReason where
  | budget
  | noData
  | shortPage
deriving DecidableEq

/-- Constant `PER_PAGE` of the fetcher. -/
def PER_PAGE : Nat := 250

/-- The `max_pages` guard at the top of the loop. -/
def budgetReached (maxPages : Option Nat) (fetchedPages : Nat) : Bool :=
  match maxPages with
  | some m => fetchedPages ≥ m
  | none => false

/-- The `while True` loop of `fetch_coin_infos`, with explicit fuel (the
source loop need not return when `max_pages` is `None` and every page is
full; `none` means the fuel ran out, and the claims are about runs that
return, carrying also the page at which the loop stopped).  Per iteration,
as in the source: budget check; fetch; empty list stops without storing or
saving state; otherwise `save_page_data` (recorded only when its write
succeeds) then `save_state` unconditionally (the write failure of
`save_page_data` is swallowed inside it), counters, and the short-page
check after advancing. -/
def runLoop {α : Type} (env : FetchEnv α) (maxPages : Option Nat) :
    Nat → RunState α → Int → Option (RunState α × StopReason × Int)
  | 0, _, _ => none
  | fuel + 1, s, page =>
    if budgetReached maxPages s.fetchedPages then some (s, .budget, page)
    else
      let coins := env.pageData page
      if coins.isEmpty then some (s, .noData, page)
      else
        let s' : RunState α :=
          { stateFile := page,
            stored :=
              if env.storeOk page then s.stored ++ [(page, coins)]
              else s.stored,
            fetchedPages := s.fetchedPages + 1,
            lastFetchedPage := page }
        if coins.length < PER_PAGE then some (s', .shortPage, page)
        else runLoop env maxPages fuel s' (page + 1)

/-- The resume computation `last_page + 1 if last_page >= 0 else 1`. -/
def resumePage (lastPage : Int) : Int :=
  if lastPage ≥ 0 then lastPage + 1 else 1

/-- Start-page resolution of `fetch_coin_infos`: an explicit positive
`start_page` wins; otherwise resume from the loaded `last_page`. -/
def resolveStartPage (lastPage : Int) (startPage : Option Int) : Int :=
  match startPage with
  | some sp => if sp > 0 then sp else resumePage lastPage
  | none => resumePage lastPage

/-- State at entry of the loop: the state file holds the loaded
`last_page`, nothing stored this run, counters zero. -/
def initRunState {α : Type} (lastPage : Int) : RunState α :=
  { stateFile := lastPage, stored := [], fetchedPages := 0,
    lastFetchedPage := 0 }

/-- Source `fetch_coin_infos`: start-page resolution followed by the loop; the
result also records the resolved start page. -/
def fetch_coin_infos {α : Type} (env : FetchEnv α) (maxPages : Option Nat)
    (startPage : Option Int) (lastPage : Int) (fuel : Nat) :
    Option (RunState α × StopReason × Int × Int) :=
  let start := resolveStartPage lastPage startPage
  (runLoop env maxPages fuel (initRunState lastPage) start).map
    (fun r => (r.1, r.2.1, r.2.2, start))

theorem runLoop_main {α : Type} (env : FetchEnv α) (mp : Option Nat) :
    ∀ (fuel : Nat) (s : RunState α) (page : Int) (s' : RunState α)
      (r : StopReason) (p' : Int),
      runLoop env mp fuel s page = some (s', r, p') →
      page ≤ p' ∧
      (∀ pr ∈ s'.stored, pr ∈ s.stored ∨
        (page ≤ pr.1 ∧ pr.1 ≤ s'.lastFetchedPage ∧
          pr.2 = env.pageData pr.1 ∧ env.storeOk pr.1 = true)) ∧
      (s' = s ∨ (0 < s'.fetchedPages ∧ s'.stateFile = s'.lastFetchedPage ∧
        page ≤ s'.lastFetchedPage ∧ s'.lastFetchedPage ≤ p')) ∧
      (r = .budget → ∃ m, mp = some m ∧ m ≤ s'.fetchedPages ∧
        (s'.fetchedPages = m ∨ s' = s)) ∧
      (r = .noData → env.pageData p' = [] ∧
        (s' = s ∨ s'.lastFetchedPage < p')) ∧
      (r = .shortPage → (env.pageData p').length < PER_PAGE ∧
        env.pageData p' ≠ [] ∧
        (env.storeOk p' = true → (p', env.pageData p') ∈ s'.stored) ∧
        s'.stateFile = p' ∧ s'.lastFetchedPage = p' ∧ 0 < s'.fetchedPages) ∧
      ((∀ q, env.storeOk q = true) →
        s'.stored.length + s.fetchedPages =
          s.stored.length + s'.fetchedPages) := by
  intro fuel
  induction fuel with
  | zero =>
    intro s page s' r p' h
    exact absurd h (by simp [runLoop])
  | succ fuel ih =>
    intro s page s' r p' h
    rw [runLoop] at h
    by_cases hb : budgetReached mp s.fetchedPages
    · rw [if_pos hb] at h
      simp only [Option.some.injEq, Prod.mk.injEq] at h
      obtain ⟨rfl, rfl, rfl⟩ := h
      refine ⟨le_refl _, fun pr hpr => Or.inl hpr, Or.inl rfl, ?_, ?_, ?_, ?_⟩
      · intro _
        cases mp with
        | none => simp [budgetReached] at hb
        | some m =>
          refine ⟨m, rfl, ?_, Or.inr rfl⟩
          simpa [budgetReached] using hb
      · intro hr; exact absurd hr (by simp)
      · intro hr; exact absurd hr (by simp)
      · intro _; rfl
    · rw [if_neg hb] at h
      by_cases he : (env.pageData page).isEmpty
      · rw [if_pos he] at h
        simp only [Option.some.injEq, Prod.mk.injEq] at h
        obtain ⟨rfl, rfl, rfl⟩ := h
        refine ⟨le_refl _, fun pr hpr => Or.inl hpr, Or.inl rfl, ?_, ?_, ?_,
          ?_⟩
        · intro hr; exact absurd hr (by simp)
        · intro _
          exact ⟨List.isEmpty_iff.mp he, Or.inl rfl⟩
        · intro hr; exact absurd hr (by simp)
        · intro _; rfl
      · rw [if_neg he] at h
        by_cases hs : (env.pageData page).length < PER_PAGE
        · rw [if_pos hs] at h
          simp only [Option.some.injEq, Prod.mk.injEq] at h
          obtain ⟨rfl, rfl, rfl⟩ := h
          refine ⟨le_refl _, ?_, ?_, ?_, ?_, ?_, ?_⟩
          · intro pr hpr
            by_cases hw : env.storeOk page
            · rw [if_pos hw] at hpr
              rcases List.mem_append.mp hpr with hpr | hpr
              · exact Or.inl hpr
              · rcases List.mem_singleton.mp hpr with rfl
                exact Or.inr ⟨le_refl _, le_refl _, rfl, hw⟩
            · rw [if_neg hw] at hpr
              exact Or.inl hpr
          · exact Or.inr ⟨Nat.succ_pos _, rfl, le_refl _, le_refl _⟩
          · intro hr; exact absurd hr (by simp)
          · intro hr; exact absurd hr (by simp)
          · intro _
            refine ⟨hs, fun hc => he (by simp [hc]), ?_, rfl, rfl,
              Nat.succ_pos _⟩
            intro hw
            simp only [if_pos hw]
            exact List.mem_append.mpr (Or.inr (List.mem_singleton.mpr rfl))
          · intro hall
            simp only [if_pos (hall page), List.length_append,
              List.length_singleton]
            omega
        · rw [if_neg hs] at h
          obtain ⟨hA, hB, hC, hD, hE, hF, hH⟩ := ih _ _ _ _ _ h
          have hA' : page ≤ p' := le_trans (by omega) hA
          refine ⟨hA', ?_, ?_, ?_, ?_, hF, ?_⟩
          · intro pr hpr
            rcases hB pr hpr with hpr2 | hpr2
            · by_cases hw : env.storeOk page
              · rw [if_pos hw] at hpr2
                rcases List.mem_append.mp hpr2 with hpr3 | hpr3
                · exact Or.inl hpr3
                · rcases List.mem_singleton.mp hpr3 with rfl
                  refine Or.inr ⟨le_refl _, ?_, rfl, hw⟩
                  rcases hC with hC | ⟨hC1, hC2, hC3, hC4⟩
                  · rw [hC]
                  · omega
              · rw [if_neg hw] at hpr2
                exact Or.inl hpr2
            · exact Or.inr ⟨le_trans (by omega) hpr2.1, hpr2.2.1,
                hpr2.2.2⟩
          · rcases hC with hC | ⟨hC1, hC2, hC3, hC4⟩
            · rw [hC]
              exact Or.inr ⟨Nat.succ_pos _, rfl, le_refl _,
                (by omega : page ≤ p')⟩
            · exact Or.inr ⟨hC1, hC2, le_trans (by omega) hC3, hC4⟩
          · intro hr
            obtain ⟨m, hm1, hm2, hm3⟩ := hD hr
            refine ⟨m, hm1, hm2, ?_⟩
            rcases hm3 with hm3 | hm3
            · exact Or.inl hm3
            · left
              have hm2' : m ≤ s.fetchedPages + 1 := by
                rw [hm3] at hm2
                exact hm2
              have hnb : ¬ s.fetchedPages ≥ m := by
                rw [hm1] at hb
                simpa [budgetReached] using hb
              rw [hm3]
              show s.fetchedPages + 1 = m
              omega
          · intro hr
            obtain ⟨he1, he2⟩ := hE hr
            refine ⟨he1, ?_⟩
            rcases he2 with he2 | he2
            · right
              rw [he2]
              show page < p'
              omega
            · exact Or.inr he2
          · intro hall
            have h2 : s'.stored.length + (s.fetchedPages + 1) =
                (if env.storeOk page = true then
                    s.stored ++ [(page, env.pageData page)]
                  else s.stored).length + s'.fetchedPages := hH hall
            rw [if_pos (hall page)] at h2
            simp only [List.length_append, List.length_singleton] at h2
            omega

/-- Environment exhibiting a page-store write failure: fetching page 1
succeeds with one record, but the `save_page_data` write fails. -/
def c1Env : FetchEnv Unit :=
  { pageData := fun p => if p = 1 then [()] else [],
    storeOk := fun _ => false }

/-- C1: the code violates the claim.  When the fetch of page 1 succeeds
with a non-empty record list but the `save_page_data` write fails (its
exception is caught and only logged inside `save_page_data`),
`save_state(1)` still runs: the run ends with the persisted `last_page`
equal to 1 while no page was durably stored, so progress points past an
unstored page. -/
theorem c1_progress_advances_past_unstored_page :
    fetch_coin_infos c1Env none none 0 2 =
      some ({ stateFile := 1, stored := [], fetchedPages := 1,
              lastFetchedPage := 1 }, .shortPage, 1, 1) ∧
    c1Env.pageData 1 = [()] ∧ c1Env.storeOk 1 = false := by
  constructor
  · rfl
  · exact ⟨rfl, rfl⟩

/-- C2: under normal storage (every page write succeeds), a returning run
stops in exactly one of the three claimed ways: a short page — which is
stored and is where both `last_page` and `last_fetched_page` point; the
page budget — reached exactly, with every fetched page stored and progress
at or past each stored page; or an empty fetch — for a page that is not
stored and to which progress was never advanced. -/
theorem c2_termination_cases {α : Type} (env : FetchEnv α)
    (mp : Option Nat) (so : Option Int) (lp : Int) (fuel : Nat)
    (s : RunState α) (r : StopReason) (stopP startP : Int)
    (hstore : ∀ q, env.storeOk q = true)
    (hrun : fetch_coin_infos env mp so lp fuel =
      some (s, r, stopP, startP)) :
    (r = .shortPage → (env.pageData stopP).length < PER_PAGE ∧
      env.pageData stopP ≠ [] ∧ (stopP, env.pageData stopP) ∈ s.stored ∧
      s.stateFile = stopP ∧ s.lastFetchedPage = stopP) ∧
    (r = .budget → ∃ m, mp = some m ∧ s.fetchedPages = m ∧
      s.stored.length = s.fetchedPages ∧
      ∀ pr ∈ s.stored, pr.1 ≤ s.stateFile) ∧
    (r = .noData → env.pageData stopP = [] ∧
      (∀ pr ∈ s.stored, pr.1 ≠ stopP) ∧
      ((s.fetchedPages = 0 ∧ s.stateFile = lp ∧ s.stored = []) ∨
        (s.stateFile = s.lastFetchedPage ∧ s.lastFetchedPage < stopP))) := by
  unfold fetch_coin_infos at hrun
  rcases Option.map_eq_some'.mp hrun with ⟨out, hout, hmap⟩
  obtain ⟨s0, r0, p0⟩ := out
  simp only [Prod.mk.injEq] at hmap
  obtain ⟨rfl, rfl, rfl, hstart⟩ := hmap
  obtain ⟨hA, hB, hC, hD, hE, hF, hH⟩ :=
    runLoop_main env mp fuel (initRunState lp) (resolveStartPage lp so)
      _ _ _ hout
  refine ⟨?_, ?_, ?_⟩
  · intro hr
    obtain ⟨f1, f2, f3, f4, f5, f6⟩ := hF hr
    exact ⟨f1, f2, f3 (hstore _), f4, f5⟩
  · intro hr
    obtain ⟨m, hm1, hm2, hm3⟩ := hD hr
    have hfe : s0.fetchedPages = m := by
      rcases hm3 with hm3 | hm3
      · exact hm3
      · have hm0 : m ≤ 0 := by rw [hm3] at hm2; exact hm2
        rw [hm3]
        show (0 : Nat) = m
        omega
    have hlen : s0.stored.length + 0 = 0 + s0.fetchedPages := hH hstore
    refine ⟨m, hm1, hfe, by omega, ?_⟩
    intro pr hpr
    rcases hB pr hpr with hpr2 | hpr2
    · exact absurd hpr2 (by simp [initRunState])
    · rcases hC with hC | ⟨hC1, hC2, hC3, hC4⟩
      · rw [hC] at hpr
        exact absurd hpr (by simp [initRunState])
      · rw [hC2]
        exact hpr2.2.1
  · intro hr
    obtain ⟨he1, he2⟩ := hE hr
    refine ⟨he1, ?_, ?_⟩
    · intro pr hpr
      rcases hB pr hpr with hpr2 | hpr2
      · exact absurd hpr2 (by simp [initRunState])
      · rcases he2 with he2 | he2
        · rw [he2] at hpr
          exact absurd hpr (by simp [initRunState])
        · have hle := hpr2.2.1
          omega
    · rcases he2 with he2 | he2
      · left
        rw [he2]
        exact ⟨rfl, rfl, rfl⟩
      · rcases hC with hC | ⟨hC1, hC2, hC3, hC4⟩
        · left
          rw [hC]
          exact ⟨rfl, rfl, rfl⟩
        · exact Or.inr ⟨hC2, he2⟩

/-- All-stores-succeed environment whose only non-empty page is page 1
(a short page), used to witness C2. -/
def c2Env : FetchEnv Unit :=
  { pageData := fun p => if p = 1 then [()] else [],
    storeOk := fun _ => true }

/-- Final state of the C2 witness run. -/
def c2OutState : RunState Unit :=
  { stateFile := 1, stored := [(1, [()])], fetchedPages := 1,
    lastFetchedPage := 1 }

/-- C2 witness: a run over `c2Env` stops with a short page 1, which is
stored and pointed to by the progress. -/
theorem c2_termination_cases_witness :
    (StopReason.shortPage = .shortPage →
      (c2Env.pageData 1).length < PER_PAGE ∧ c2Env.pageData 1 ≠ [] ∧
      ((1 : Int), c2Env.pageData 1) ∈ c2OutState.stored ∧
      c2OutState.stateFile = 1 ∧ c2OutState.lastFetchedPage = 1) ∧
    (StopReason.shortPage = .budget → ∃ m, (none : Option Nat) = some m ∧
      c2OutState.fetchedPages = m ∧
      c2OutState.stored.length = c2OutState.fetchedPages ∧
      ∀ pr ∈ c2OutState.stored, pr.1 ≤ c2OutState.stateFile) ∧
    (StopReason.shortPage = .noData → c2Env.pageData 1 = [] ∧
      (∀ pr ∈ c2OutState.stored, pr.1 ≠ 1) ∧
      ((c2OutState.fetchedPages = 0 ∧ c2OutState.stateFile = 0 ∧
          c2OutState.stored = []) ∨
        (c2OutState.stateFile = c2OutState.lastFetchedPage ∧
          c2OutState.lastFetchedPage < 1))) :=
  c2_termination_cases c2Env none none 0 2 c2OutState .shortPage 1 1
    (fun _ => rfl) rfl

/-- C3: persisted progress and resume.  If a run returns having fetched
and stored pages up to page `N ≥ 1` (every store succeeding), the state
file ends at `N`; any later run, loading that state with no explicit
start override, starts fetching at page `N + 1`, and every page it stores
has number at least `N + 1` — in particular it never re-stores
page `N`. -/
theorem c3_resume_correctness {α : Type} (env1 : FetchEnv α)
    (mp1 : Option Nat) (so1 : Option Int) (lp1 : Int) (fuel1 : Nat)
    (s1 : RunState α) (r1 : StopReason) (p1 start1 : Int) (N : Int)
    (env2 : FetchEnv α) (mp2 : Option Nat) (fuel2 : Nat) (s2 : RunState α)
    (r2 : StopReason) (p2 start2 : Int)
    (hrun1 : fetch_coin_infos env1 mp1 so1 lp1 fuel1 =
      some (s1, r1, p1, start1))
    (hN : s1.lastFetchedPage = N) (hN1 : 1 ≤ N)
    (hrun2 : fetch_coin_infos env2 mp2 none s1.stateFile fuel2 =
      some (s2, r2, p2, start2)) :
    s1.stateFile = N ∧ start2 = N + 1 ∧
    ∀ pr ∈ s2.stored, N + 1 ≤ pr.1 ∧ pr.1 ≠ N := by
  unfold fetch_coin_infos at hrun1 hrun2
  rcases Option.map_eq_some'.mp hrun1 with ⟨out1, hout1, hmap1⟩
  obtain ⟨s0, r0, p0⟩ := out1
  simp only [Prod.mk.injEq] at hmap1
  obtain ⟨rfl, rfl, rfl, hstart1⟩ := hmap1
  rcases Option.map_eq_some'.mp hrun2 with ⟨out2, hout2, hmap2⟩
  obtain ⟨t0, q0, w0⟩ := out2
  simp only [Prod.mk.injEq] at hmap2
  obtain ⟨rfl, rfl, rfl, hstart2⟩ := hmap2
  obtain ⟨hA, hB, hC, hD, hE, hF, hH⟩ :=
    runLoop_main env1 mp1 fuel1 (initRunState lp1)
      (resolveStartPage lp1 so1) _ _ _ hout1
  have hsf : s0.stateFile = N := by
    rcases hC with hC | ⟨hC1, hC2, hC3, hC4⟩
    · exfalso
      have h0 : s0.lastFetchedPage = 0 := by rw [hC]; rfl
      omega
    · rw [hC2, hN]
  have hstart2' : start2 = N + 1 := by
    rw [← hstart2, hsf]
    simp only [resolveStartPage, resumePage]
    rw [if_pos (by omega : N ≥ 0)]
  refine ⟨hsf, hstart2', ?_⟩
  obtain ⟨hA2, hB2, hC2, hD2, hE2, hF2, hH2⟩ :=
    runLoop_main env2 mp2 fuel2 (initRunState s0.stateFile)
      (resolveStartPage s0.stateFile none) _ _ _ hout2
  intro pr hpr
  rcases hB2 pr hpr with hpr2 | hpr2
  · exact absurd hpr2 (by simp [initRunState])
  · have hge : resolveStartPage s0.stateFile none ≤ pr.1 := hpr2.1
    have hrsp : resolveStartPage s0.stateFile none = N + 1 :=
      hstart2.trans hstart2'
    rw [hrsp] at hge
    exact ⟨hge, by omega⟩

/-- Environment of the first C3 witness run: one short page 1. -/
def c3Env1 : FetchEnv Unit :=
  { pageData := fun p => if p = 1 then [()] else [],
    storeOk := fun _ => true }

/-- Environment of the second C3 witness run: no data at all. -/
def c3Env2 : FetchEnv Unit :=
  { pageData := fun _ => [], storeOk := fun _ => true }

/-- Final state of the first C3 witness run. -/
def c3OutState1 : RunState Unit :=
  { stateFile := 1, stored := [(1, [()])], fetchedPages := 1,
    lastFetchedPage := 1 }

/-- Final state of the second C3 witness run. -/
def c3OutState2 : RunState Unit :=
  { stateFile := 1, stored := [], fetchedPages := 0,
    lastFetchedPage := 0 }

/-- C3 witness: after a run that stored page 1, the resumed run starts at
page 2 and stores nothing below it. -/
theorem c3_resume_correctness_witness :
    c3OutState1.stateFile = 1 ∧ (2 : Int) = 1 + 1 ∧
    ∀ pr ∈ c3OutState2.stored, (1 : Int) + 1 ≤ pr.1 ∧ pr.1 ≠ 1 :=
  c3_resume_correctness c3Env1 none none 0 2 c3OutState1
    StopReason.shortPage 1 1 1 c3Env2 none 1 c3OutState2 StopReason.noData
    2 2 rfl rfl (by norm_num) rfl

/-- C9: start-page resolution.  A run that returned resolved its start
page as: an explicit positive override wins regardless of stored
progress; with no override, `last_page + 1` when the loaded progress is
non-negative (so page 1 when no progress exists), and the defensive
fallback 1 when the loaded value is negative. -/
theorem c9_start_page_resolution {α : Type} (env : FetchEnv α)
    (mp : Option Nat) (so : Option Int) (lp : Int) (fuel : Nat)
    (s : RunState α) (r : StopReason) (p' startP : Int)
    (hrun : fetch_coin_infos env mp so lp fuel =
      some (s, r, p', startP)) :
    (∀ sp, so = some sp → 0 < sp → startP = sp) ∧
    (so = none → 0 ≤ lp → startP = lp + 1) ∧
    (so = none → lp < 0 → startP = 1) := by
  unfold fetch_coin_infos at hrun
  rcases Option.map_eq_some'.mp hrun with ⟨out, hout, hmap⟩
  obtain ⟨s0, r0, p0⟩ := out
  simp only [Prod.mk.injEq] at hmap
  obtain ⟨rfl, rfl, rfl, hstart⟩ := hmap
  refine ⟨?_, ?_, ?_⟩
  · intro sp hso hsp
    rw [← hstart, hso]
    simp only [resolveStartPage]
    rw [if_pos hsp]
  · intro hso hlp
    rw [← hstart, hso]
    simp only [resolveStartPage, resumePage]
    rw [if_pos (by omega : lp ≥ 0)]
  · intro hso hlp
    rw [← hstart, hso]
    simp only [resolveStartPage, resumePage]
    rw [if_neg (by omega : ¬ lp ≥ 0)]

/-- Environment of the C9 witness: no page has data. -/
def c9Env : FetchEnv Unit :=
  { pageData := fun _ => [], storeOk := fun _ => true }

/-- C9 witness: with explicit override 5 and stored progress 3, the run
starts at page 5. -/
theorem c9_start_page_resolution_witness :
    (∀ sp, (some (5 : Int)) = some sp → 0 < sp → (5 : Int) = sp) ∧
    ((some (5 : Int)) = none → (0 : Int) ≤ 3 → (5 : Int) = 3 + 1) ∧
    ((some (5 : Int)) = none → (3 : Int) < 0 → (5 : Int) = 1) :=
  c9_start_page_resolution c9Env none (some 5) 3 1
    { stateFile := 3, stored := [], fetchedPages := 0,
      lastFetchedPage := 0 } .noData 5 5 rfl

/-- Outcome of the i-th HTTP attempt inside `fetch_page`: a 429 response;
any raised error (non-2xx status via `raise_for_status`, network failure,
JSON decode failure — all caught by the `except` arm); a 2xx response
whose JSON is not a list; or a list payload. -/
inductive AttemptOutcome (α : Type) where
  | rateLimited
  | transportError
  | malformed
  | ok (records : List α)
deriving DecidableEq

/-- Constant `MAX_RETRIES_PER_PAGE`. -/
def MAX_RETRIES_PER_PAGE : Nat := 3

/-- The backoff the source sleeps after a retried attempt: 60 time-units
after a 429, 5 after a generic error. -/
def backoff {α : Type} : AttemptOutcome α → Nat
  | .rateLimited => 60
  | _ => 5

/-- The retry loop of `fetch_page` over a sequence of attempt outcomes
(`attempts i` is what the transport does on request number `i`, from 0).
Returns the records (empty on a malformed payload or on exhaustion), the
number of attempts consumed, and the sleeps performed, in order.
`remaining` stands for `MAX_RETRIES_PER_PAGE - retries`. -/
def fetchGo {α : Type} (attempts : Nat → AttemptOutcome α) :
    Nat → Nat → List Nat → List α × Nat × List Nat
  | 0, used, sleeps => ([], used, sleeps)
  | remaining + 1, used, sleeps =>
    match attempts used with
    | .rateLimited => fetchGo attempts remaining (used + 1) (sleeps ++ [60])
    | .transportError => fetchGo attempts remaining (used + 1) (sleeps ++ [5])
    | .malformed => ([], used + 1, sleeps)
    | .ok records => (records, used + 1, sleeps)

/-- Source `fetch_page`: the loop entered with `retries = 0`. -/
def fetch_page {α : Type} (attempts : Nat → AttemptOutcome α) :
    List α × Nat × List Nat :=
  fetchGo attempts MAX_RETRIES_PER_PAGE 0 []

theorem fetchGo_used_le {α : Type} (attempts : Nat → AttemptOutcome α) :
    ∀ (remaining used : Nat) (sleeps : List Nat),
      (fetchGo attempts remaining used sleeps).2.1 ≤ used + remaining := by
  intro remaining
  induction remaining with
  | zero => intro used sleeps; simp [fetchGo]
  | succ r ih =>
    intro used sleeps
    rw [fetchGo]
    cases attempts used with
    | rateLimited => exact le_trans (ih (used + 1) _) (by omega)
    | transportError => exact le_trans (ih (used + 1) _) (by omega)
    | malformed => show used + 1 ≤ used + (r + 1); omega
    | ok records => show used + 1 ≤ used + (r + 1); omega

theorem fetchGo_skip {α : Type} (attempts : Nat → AttemptOutcome α) :
    ∀ (i remaining used : Nat) (sleeps : List Nat),
      (∀ j, j < i → attempts (used + j) = .rateLimited ∨
        attempts (used + j) = .transportError) →
      i ≤ remaining →
      fetchGo attempts remaining used sleeps =
        fetchGo attempts (remaining - i) (used + i)
          (sleeps ++ (List.range i).map
            (fun j => backoff (attempts (used + j)))) := by
  intro i
  induction i with
  | zero => intro remaining used sleeps _ _; simp
  | succ i ih =>
    intro remaining used sleeps hretry hle
    obtain ⟨r, rfl⟩ : ∃ r, remaining = r + 1 :=
      ⟨remaining - 1, by omega⟩
    rw [fetchGo]
    have h0 := hretry 0 (Nat.succ_pos i)
    have hshift : ∀ j, j < i → attempts (used + 1 + j) = .rateLimited ∨
        attempts (used + 1 + j) = .transportError := by
      intro j hj
      have := hretry (j + 1) (by omega)
      rwa [show used + (j + 1) = used + 1 + j by omega] at this
    have hrange : (List.range (i + 1)).map
          (fun j => backoff (attempts (used + j))) =
        backoff (attempts used) :: (List.range i).map
          (fun j => backoff (attempts (used + 1 + j))) := by
      rw [List.range_succ_eq_map]
      simp only [List.map_cons, List.map_map]
      congr 1
      apply List.map_congr_left
      intro j _
      simp only [Function.comp_apply]
      congr 2
      omega
    have e1 : r + 1 - (i + 1) = r - i := by omega
    have e2 : used + (i + 1) = used + 1 + i := by omega
    rcases h0 with h0 | h0
    · rw [Nat.add_zero] at h0
      simp only [h0]
      rw [ih r (used + 1) (sleeps ++ [60]) hshift (by omega)]
      rw [hrange, h0, e1, e2]
      simp [backoff]
    · rw [Nat.add_zero] at h0
      simp only [h0]
      rw [ih r (used + 1) (sleeps ++ [5]) hshift (by omega)]
      rw [hrange, h0, e1, e2]
      simp [backoff]

/-- C4: the retry policy of `fetch_page`.  (1) At most 3 attempts are ever
made.  (2) If the first `i < 3` attempts are retryable (429 or generic
error — both drawing on the same budget, sleeping 60 resp. 5 units, as the
returned sleep trace records) and attempt `i` returns a list, that list is
returned after `i + 1` attempts.  (3) Same, but a malformed (non-list)
payload at attempt `i` returns the empty list immediately, with no further
retry.  (4) If all 3 attempts are retryable, the budget is exhausted and
the empty result is returned after exactly 3 attempts. -/
theorem c4_fetch_page_retry_policy {α : Type}
    (attempts : Nat → AttemptOutcome α) :
    (fetch_page attempts).2.1 ≤ MAX_RETRIES_PER_PAGE ∧
    (∀ i records, i < MAX_RETRIES_PER_PAGE →
      (∀ j, j < i → attempts j = .rateLimited ∨
        attempts j = .transportError) →
      attempts i = .ok records →
      fetch_page attempts =
        (records, i + 1,
          (List.range i).map (fun j => backoff (attempts j)))) ∧
    (∀ i, i < MAX_RETRIES_PER_PAGE →
      (∀ j, j < i → attempts j = .rateLimited ∨
        attempts j = .transportError) →
      attempts i = .malformed →
      fetch_page attempts =
        ([], i + 1, (List.range i).map (fun j => backoff (attempts j)))) ∧
    ((∀ i, i < MAX_RETRIES_PER_PAGE →
        attempts i = .rateLimited ∨ attempts i = .transportError) →
      fetch_page attempts =
        ([], MAX_RETRIES_PER_PAGE,
          (List.range MAX_RETRIES_PER_PAGE).map
            (fun j => backoff (attempts j)))) := by
  refine ⟨?_, ?_, ?_, ?_⟩
  · exact fetchGo_used_le attempts MAX_RETRIES_PER_PAGE 0 []
  · intro i records hi hretry hok
    unfold fetch_page
    rw [fetchGo_skip attempts i MAX_RETRIES_PER_PAGE 0 []
      (by intro j hj; simpa using hretry j hj) (by omega)]
    obtain ⟨r, hr⟩ : ∃ r, MAX_RETRIES_PER_PAGE - i = r + 1 :=
      ⟨MAX_RETRIES_PER_PAGE - i - 1,
        by simp only [MAX_RETRIES_PER_PAGE] at hi ⊢; omega⟩
    rw [hr, fetchGo]
    simp only [Nat.zero_add]
    rw [hok]
    rfl
  · intro i hi hretry hmal
    unfold fetch_page
    rw [fetchGo_skip attempts i MAX_RETRIES_PER_PAGE 0 []
      (by intro j hj; simpa using hretry j hj) (by omega)]
    obtain ⟨r, hr⟩ : ∃ r, MAX_RETRIES_PER_PAGE - i = r + 1 :=
      ⟨MAX_RETRIES_PER_PAGE - i - 1,
        by simp only [MAX_RETRIES_PER_PAGE] at hi ⊢; omega⟩
    rw [hr, fetchGo]
    simp only [Nat.zero_add]
    rw [hmal]
    rfl
  · intro hretry
    unfold fetch_page
    rw [fetchGo_skip attempts MAX_RETRIES_PER_PAGE MAX_RETRIES_PER_PAGE 0 []
      (by intro j hj; simpa using hretry j hj) (by omega)]
    simp [fetchGo]

/-- The attempt sequence of the C4 witness: two 429 responses, then a
successful list payload. -/
def c4Attempts : Nat → AttemptOutcome Unit :=
  fun i =>
    match i with
    | 0 => .rateLimited
    | 1 => .rateLimited
    | _ => .ok [()]

/-- C4 witness: two rate-limited attempts followed by a successful third
attempt return the page's records after exactly 3 attempts, having slept
60 units twice. -/
theorem c4_fetch_page_retry_policy_witness :
    fetch_page c4Attempts = ([()], 3, [60, 60]) := by
  have h := (c4_fetch_page_retry_policy c4Attempts).2.1 2 [()]
    (by norm_num [MAX_RETRIES_PER_PAGE])
    (by
      intro j hj
      interval_cases j
      · exact Or.inl rfl
      · exact Or.inl rfl)
    rfl
  exact h

/-- The aggregator's filesystem: the `all_coins_cache.json` content (its
`coins` list; `none` when the file is absent or unreadable) and the
`coin_pages/page_*.json` files as (page number, decoded payload) pairs,
the payload being `none` when a file fails to read or its `coins` field
is not a list (such files are skipped). -/
structure FS where
  cache : Option (List Coin)
  pages : List (Int × Option (List Coin))

/-- One step of the stable ascending insertion modelling
`page_files.sort(key=lambda x: x[0])`. -/
def insertPage (x : Int × Option (List Coin)) :
    List (Int × Option (List Coin)) → List (Int × Option (List Coin))
  | [] => [x]
  | y :: t => if y.1 < x.1 then y :: insertPage x t else x :: y :: t

/-- Stable sort of the page files by page number, ascending. -/
def sortPages :
    List (Int × Option (List Coin)) → List (Int × Option (List Coin))
  | [] => []
  | x :: t => insertPage x (sortPages t)

/-- The accumulation loop of `_load_coins_from_local_pages`: walk the
sorted page files, stopping before a file once `limit` records are
already collected, skipping undecodable payloads, else appending. -/
def pagesLoop (limit : Nat) :
    List (Int × Option (List Coin)) → List Coin → List Coin
  | [], acc => acc
  | (_, payload) :: rest, acc =>
    if limit ≤ acc.length then acc
    else
      match payload with
      | none => pagesLoop limit rest acc
      | some cs => pagesLoop limit rest (acc ++ cs)

/-- Source `CoinSelector._load_coins_from_local_pages`: sort, accumulate,
truncate to `limit`. -/
def loadLocalPages (pages : List (Int × Option (List Coin)))
    (limit : Nat) : List Coin :=
  (pagesLoop limit (sortPages pages) []).take limit

/-- The rebuild-and-cache path of `get_all_coins`: aggregate from the
page files; when non-empty, persist the aggregate as the new cache and
return it truncated to `limit`. -/
def rebuildFromPages (fs : FS) (limit : Nat) : FS × List Coin :=
  let coins := loadLocalPages fs.pages limit
  if coins.isEmpty then (fs, [])
  else ({ fs with cache := some coins }, coins.take limit)

/-- Source `CoinSelector.get_all_coins`: serve a non-empty cache truncated to
`limit`; otherwise rebuild from the page files. -/
def get_all_coins (fs : FS) (limit : Nat) : FS × List Coin :=
  match fs.cache with
  | some cached =>
    if cached.isEmpty then rebuildFromPages fs limit
    else (fs, cached.take limit)
  | none => rebuildFromPages fs limit

/-- Concatenation of the decodable page payloads, in file order. -/
def concatPages : List (Int × Option (List Coin)) → List Coin
  | [] => []
  | (_, none) :: rest => concatPages rest
  | (_, some cs) :: rest => cs ++ concatPages rest

theorem pagesLoop_take (limit : Nat) :
    ∀ (files : List (Int × Option (List Coin))) (acc : List Coin),
      (pagesLoop limit files acc).take limit =
        (acc ++ concatPages files).take limit := by
  intro files
  induction files with
  | nil => intro acc; simp [pagesLoop, concatPages]
  | cons f rest ih =>
    intro acc
    obtain ⟨p, payload⟩ := f
    simp only [pagesLoop]
    split_ifs with h
    · cases payload with
      | none =>
        rw [concatPages, List.take_append_eq_append_take]
        rw [Nat.sub_eq_zero_of_le h]
        simp
      | some cs =>
        rw [concatPages, List.take_append_eq_append_take]
        rw [Nat.sub_eq_zero_of_le h]
        simp
    · cases payload with
      | none => rw [ih acc, concatPages]
      | some cs =>
        rw [ih (acc ++ cs), concatPages, List.append_assoc]

theorem insertPage_perm (x : Int × Option (List Coin))
    (l : List (Int × Option (List Coin))) :
    (insertPage x l).Perm (x :: l) := by
  induction l with
  | nil => simp [insertPage]
  | cons y t ih =>
    simp only [insertPage]
    split_ifs
    · exact (ih.cons y).trans (List.Perm.swap x y t)
    · exact List.Perm.refl _

theorem sortPages_perm (l : List (Int × Option (List Coin))) :
    (sortPages l).Perm l := by
  induction l with
  | nil => simp [sortPages]
  | cons x t ih =>
    exact (insertPage_perm x (sortPages t)).trans (ih.cons x)

theorem insertPage_sorted (x : Int × Option (List Coin))
    (l : List (Int × Option (List Coin)))
    (hl : l.Pairwise (fun a b => a.1 ≤ b.1)) :
    (insertPage x l).Pairwise (fun a b => a.1 ≤ b.1) := by
  induction l with
  | nil => simp [insertPage]
  | cons y t ih =>
    simp only [insertPage]
    rw [List.pairwise_cons] at hl
    split_ifs with h
    · rw [List.pairwise_cons]
      refine ⟨?_, ih hl.2⟩
      intro z hz
      rcases List.mem_cons.mp ((insertPage_perm x t).mem_iff.mp hz) with
        hz3 | hz3
      · subst hz3; exact h.le
      · exact hl.1 z hz3
    · rw [List.pairwise_cons]
      push_neg at h
      refine ⟨?_, List.pairwise_cons.mpr hl⟩
      intro z hz
      rcases List.mem_cons.mp hz with hz3 | hz3
      · subst hz3; exact h
      · exact le_trans h (hl.1 z hz3)

/-- C10: aggregation caching.  When no cache exists, a rebuild with limit
`L` persists exactly the page-number-ordered concatenation of the page
payloads truncated to `L` (so at most `L` records) — the order being that
of the stable ascending sort of the page files, proved sorted and a
permutation of them — and every later call that finds this cache
non-empty returns its truncation to the new limit `L'`, hence at most
`min L L'` records, regardless of how many records the page store
holds. -/
theorem c10_aggregate_cache_limit (fs : FS) (L : Nat) (fs' : FS)
    (out : List Coin) (hcache : fs.cache = none)
    (hrun : get_all_coins fs L = (fs', out)) :
    (sortPages fs.pages).Pairwise (fun a b => a.1 ≤ b.1) ∧
    (sortPages fs.pages).Perm fs.pages ∧
    ∀ c, fs'.cache = some c →
      c = (concatPages (sortPages fs.pages)).take L ∧ c.length ≤ L ∧
      ∀ L' fs'' out', get_all_coins fs' L' = (fs'', out') →
        c ≠ [] → out' = c.take L' ∧ out'.length ≤ min L L' := by
  have hsorted : (sortPages fs.pages).Pairwise (fun a b => a.1 ≤ b.1) := by
    induction fs.pages with
    | nil => simp [sortPages]
    | cons x t ih => exact insertPage_sorted x (sortPages t) ih
  refine ⟨hsorted, sortPages_perm fs.pages, ?_⟩
  intro c hc
  unfold get_all_coins at hrun
  rw [hcache] at hrun
  unfold rebuildFromPages at hrun
  by_cases hemp : (loadLocalPages fs.pages L).isEmpty
  · rw [if_pos hemp] at hrun
    obtain ⟨rfl, rfl⟩ := Prod.mk.injEq .. ▸ hrun
    exact absurd (hcache ▸ hc) (by simp)
  · rw [if_neg hemp] at hrun
    have hfs' : fs' = { fs with cache := some (loadLocalPages fs.pages L) } ∧
        out = (loadLocalPages fs.pages L).take L := by
      constructor
      · exact (Prod.mk.injEq .. ▸ hrun).1.symm
      · exact (Prod.mk.injEq .. ▸ hrun).2.symm
    obtain ⟨hfs'1, hfs'2⟩ := hfs'
    have hcel : c = loadLocalPages fs.pages L := by
      rw [hfs'1] at hc
      exact (Option.some.inj hc).symm
    have hcval : c = (concatPages (sortPages fs.pages)).take L := by
      rw [hcel]
      unfold loadLocalPages
      rw [pagesLoop_take L (sortPages fs.pages) []]
      simp
    have hclen : c.length ≤ L := by
      rw [hcval]
      simp [List.length_take]
    refine ⟨hcval, hclen, ?_⟩
    intro L' fs'' out' hrun2 hcne
    unfold get_all_coins at hrun2
    rw [hfs'1] at hrun2
    simp only at hrun2
    rw [← hcel] at hrun2
    rw [if_neg (by simpa [List.isEmpty_iff] using hcne)] at hrun2
    have hout' : out' = c.take L' := (Prod.mk.injEq .. ▸ hrun2).2.symm
    refine ⟨hout', ?_⟩
    rw [hout']
    simp only [List.length_take]
    omega

/-- A concrete record for the C10 witness. -/
def c10Coin : Coin :=
  { name := ['A'], symbol := ['A'], market_cap := none,
    total_volume := none, price_change_percentage_24h := none,
    price_change_percentage_7d := none, market_cap_rank := none,
    ath_change_percentage := none, ath_date := .absent,
    current_price := none }

/-- Cache-less filesystem of the C10 witness: two page files, listed out
of order, three records in total. -/
def c10FS : FS :=
  { cache := none,
    pages := [(2, some [c10Coin]), (1, some [c10Coin, c10Coin])] }

/-- Filesystem after the witness rebuild with limit 2: the cache holds
the first two records of the page-ordered concatenation. -/
def c10FSAfter : FS :=
  { cache := some [c10Coin, c10Coin],
    pages := [(2, some [c10Coin]), (1, some [c10Coin, c10Coin])] }

/-- C10 witness: rebuilding with limit 2 over three stored records caches
exactly two records, and later calls serve prefixes of that cache. -/
theorem c10_aggregate_cache_limit_witness :
    (sortPages c10FS.pages).Pairwise (fun a b => a.1 ≤ b.1) ∧
    (sortPages c10FS.pages).Perm c10FS.pages ∧
    ∀ c, c10FSAfter.cache = some c →
      c = (concatPages (sortPages c10FS.pages)).take 2 ∧ c.length ≤ 2 ∧
      ∀ L' fs'' out', get_all_coins c10FSAfter L' = (fs'', out') →
        c ≠ [] → out' = c.take L' ∧ out'.length ≤ min 2 L' :=
  c10_aggregate_cache_limit c10FS 2 c10FSAfter [c10Coin, c10Coin] rfl rfl
